import Mathlib

/-!
Verification of the BibTeX-to-HTML rendering pipeline of this repository
(`parseBibtex` and `renderHTML`).  The embedding models JavaScript strings
as lists of characters and JavaScript objects (the parsed entries) as
association lists in which a later assignment shadows earlier ones.
The current system year, which the source reads with
`new Date().getFullYear()` inside `parseBibtex`, is passed to the model as
an explicit parameter `currentYear`.
-/

namespace Bib

/-- JavaScript strings are modelled as lists of characters. -/
abbrev Str := List Char

/-- Embed a Lean string literal into the model. -/
def str (s : String) : Str := s.data

/-- The character `{` (written by code point to keep it out of literals). -/
def lbrace : Char := Char.ofNat 123

/-- The character `}`. -/
def rbrace : Char := Char.ofNat 125

/-- The character `"`. -/
def dquote : Char := Char.ofNat 34

/-- Whitespace as trimmed by JavaScript `trim()` (the forms that occur in
BibTeX text: space, tab, newline, carriage return). -/
def isWs (c : Char) : Bool := c = ' ' || c = '\t' || c = '\n' || c = '\r'

/-- JavaScript `s.trim()`: drop whitespace from both ends. -/
def trimL (l : Str) : Str := ((l.dropWhile isWs).reverse.dropWhile isWs).reverse

/-- JavaScript `s.split(sep)` for a one-character separator: it always
returns a non-empty list of (possibly empty) pieces. -/
def splitOnChar (sep : Char) : Str → List Str
  | [] => [[]]
  | c :: rest =>
    match splitOnChar sep rest with
    | [] => [[]]
    | cur :: others => if c = sep then [] :: cur :: others else (c :: cur) :: others

/-- JavaScript `s.replace(',', '')`: remove only the first comma. -/
def removeFirstComma : Str → Str
  | [] => []
  | c :: rest => if c = ',' then rest else c :: removeFirstComma rest

/-- JavaScript `s.replace(/[{}"]/g, '')`: remove every brace and double
quote. -/
def stripBQ (l : Str) : Str := l.filter (fun c => !(c = lbrace || c = rbrace || c = dquote))

/-- JavaScript `s.replace(/,$/, '')`: remove one trailing comma if present. -/
def dropTrailingComma (l : Str) : Str :=
  if l.getLast? = some ',' then l.dropLast else l

/-- JavaScript `s.toLowerCase()` on the ASCII field names that occur here. -/
def toLowerL (l : Str) : Str := l.map Char.toLower

/-- Numeric value of a digit string. -/
def digitsToNat (l : Str) : Nat := l.foldl (fun a c => a * 10 + (c.toNat - 48)) 0

/-- The maximal leading run of decimal digits; `none` when there is none
(which makes `parseInt` return NaN). -/
def leadingDigits (l : Str) : Option Str :=
  match l.takeWhile Char.isDigit with
  | [] => none
  | ds => some ds

/-- JavaScript `parseInt(s)` (radix 10): skip leading whitespace, read an
optional sign and then the leading digits; `none` models NaN. -/
def jsParseInt (s : Str) : Option Int :=
  match s.dropWhile isWs with
  | [] => none
  | c :: rest =>
    if c = '-' then (leadingDigits rest).map (fun l => -(digitsToNat l : Int))
    else if c = '+' then (leadingDigits rest).map (fun l => (digitsToNat l : Int))
    else (leadingDigits (c :: rest)).map (fun l => (digitsToNat l : Int))

/-- JavaScript number coercion `Number(s)` as exercised by the sort
comparator `(b.year || 0) - (a.year || 0)`, restricted to the integer
literals this parser stores; `none` models NaN. -/
def jsToNumber (s : Str) : Option Int :=
  match trimL s with
  | [] => some 0
  | c :: rest =>
    if c = '-' then
      if rest ≠ [] ∧ rest.all Char.isDigit then some (-(digitsToNat rest : Int)) else none
    else if c = '+' then
      if rest ≠ [] ∧ rest.all Char.isDigit then some (digitsToNat rest : Int) else none
    else if (c :: rest).all Char.isDigit then some (digitsToNat (c :: rest) : Int) else none

/-- A parsed BibTeX entry: the JavaScript object built by `parseBibtex`,
as an association list where the most recent assignment comes first. -/
abbrev BibEntry := List (Str × Str)

/-- Property read `entry[k]`: `none` models `undefined`. -/
def getF (e : BibEntry) (k : Str) : Option Str := e.lookup k

/-- Property write `entry[k] = v` (shadows any earlier value of `k`). -/
def setF (e : BibEntry) (k v : Str) : BibEntry := (k, v) :: e

/-- JavaScript truthiness of a string-or-undefined value: `undefined` and
the empty string are falsy. -/
def truthy (o : Option Str) : Bool :=
  match o with
  | none => false
  | some s => s ≠ []

/-- JavaScript `a || alt` for a string-or-undefined `a`. -/
def jsOrS (o : Option Str) (alt : Str) : Str :=
  match o with
  | none => alt
  | some s => if s = [] then alt else s

/-- The field name stored for a body line, from the source:
`line = line.trim(); const [k, v] = line.split('='); k.trim().toLowerCase()`. -/
def fieldNameOfLine (line : Str) : Str :=
  toLowerL (trimL ((splitOnChar '=' (trimL line)).headD []))

/-- The stripping applied to the raw right-hand side of a field line:
`v.replace(/[{}"]/g, '').replace(/,$/, '').trim()`. -/
def parseFieldValue (v : Str) : Str := trimL (dropTrailingComma (stripBQ v))

/-- The field value stored for a body line (the piece between the first
and second `=` of the trimmed line, stripped). -/
def fieldValueOfLine (line : Str) : Str :=
  parseFieldValue ((splitOnChar '=' (trimL line)).getD 1 [])

/-- One step of the `fields.forEach` loop of `parseBibtex`: a trimmed line
containing `=` stores a field, any other line is ignored. -/
def processField (e : BibEntry) (line : Str) : BibEntry :=
  if (trimL line).contains '=' then
    setF e (fieldNameOfLine line) (fieldValueOfLine line)
  else e

/-- Parse one `@`-segment into an entry, from the source: the first line
is split at `{` into the type and the key (`key` defaults to the empty
string when there is no `{`), and the remaining lines are folded through
`processField`. -/
def parseEntry (raw : Str) : BibEntry :=
  let lines := splitOnChar '\n' raw
  let typeAndKey := lines.headD []
  let pieces := splitOnChar lbrace typeAndKey
  let typeV := trimL (pieces.headD [])
  let keyV : Str :=
    match pieces.get? 1 with
    | none => []
    | some k => if k = [] then [] else trimL (removeFirstComma k)
  lines.tail.foldl processField (setF (setF [] (str "type") typeV) (str "key") keyV)

/-- The recency filter of `parseBibtex`:
`entry.year && parseInt(entry.year) >= limYear` with `limYear = currentYear - 3`. -/
def keepRecent (currentYear : Int) (e : BibEntry) : Bool :=
  match getF e (str "year") with
  | none => false
  | some y =>
    if y = [] then false
    else
      match jsParseInt y with
      | none => false
      | some n => n ≥ currentYear - 3

/-- Parse and filter a list of `@`-segments in order. -/
def processSegs (currentYear : Int) (segs : List Str) : List BibEntry :=
  (segs.map parseEntry).filter (keepRecent currentYear)

/-- Function `parseBibtex` from the source: split the text at `@`, drop the text
before the first `@`, parse each segment, and keep only entries whose
`year` parses to at least `currentYear - 3`. -/
def parseBibtex (currentYear : Int) (bibtex : Str) : List BibEntry :=
  processSegs currentYear ((splitOnChar '@' bibtex).drop 1)

/-- The numeric key used by the sort comparator
`(b.year || 0) - (a.year || 0)`: a missing or empty `year` counts as 0.
(For a stored `year` that is not an integer literal the comparator is NaN
and the JavaScript sort order is engine-dependent; the model fixes key 0
there, and every theorem below that concerns order assumes integer or
missing years.) -/
def yearKeyNum (e : BibEntry) : Int :=
  match getF e (str "year") with
  | none => 0
  | some y => if y = [] then 0 else (jsToNumber y).getD 0

/-- Stable insertion used to model `entries.sort(...)`: JavaScript
`Array.prototype.sort` is a stable sort, so an earlier element stays
before later elements with an equal key. -/
def insertByYear (x : BibEntry) : List BibEntry → List BibEntry
  | [] => [x]
  | y :: ys => if yearKeyNum y ≤ yearKeyNum x then x :: y :: ys else y :: insertByYear x ys

/-- The in-place `entries.sort((a, b) => (b.year || 0) - (a.year || 0))`:
stable, descending by numeric year. -/
def sortEntries : List BibEntry → List BibEntry
  | [] => []
  | x :: xs => insertByYear x (sortEntries xs)

/-- The case-insensitive global replacement `author.replace(/ and /gi, ', ')`:
scan left to right, replacing each non-overlapping occurrence of a
five-character block space–a–n–d–space. -/
def repAnd : Str → Str
  | c :: a :: n :: d :: s2 :: rest2 =>
    if c = ' ' && a.toLower = 'a' && n.toLower = 'n' && d.toLower = 'd' && s2 = ' ' then
      ',' :: ' ' :: repAnd rest2
    else c :: repAnd (a :: n :: d :: s2 :: rest2)
  | l => l

/-- The rendered block for one entry given the already-computed author
string: the template literal of `renderHTML` with its exact whitespace. -/
def formatRest (e : BibEntry) (author : Str) : Str :=
  let title :=
    if truthy (getF e (str "title")) then
      str "<i>\"" ++ (getF e (str "title")).getD [] ++ str "\"</i>"
    else str "Untitled"
  let source :=
    jsOrS (getF e (str "journal"))
      (jsOrS (getF e (str "booktitle"))
        (jsOrS (getF e (str "publisher"))
          (jsOrS (getF e (str "howpublished")) [])))
  let doiLink :=
    if truthy (getF e (str "doi")) then
      str "<a href=\"https://doi.org/" ++ (getF e (str "doi")).getD [] ++
        str "\" target=\"_blank\">" ++ (getF e (str "doi")).getD [] ++ str "</a>"
    else []
  let yearV := jsOrS (getF e (str "year")) []
  str "\n      <div class=\"entry mb-2\">\n        <p>\n          " ++ author ++
    str ", " ++ title ++ str ". " ++ source ++ str ", " ++ yearV ++ str ". " ++
    doiLink ++ str "\n        </p>\n      </div>\n    "

/-- The block rendered for one entry:
`entry.author ? entry.author.replace(/ and /gi, ', ') : 'Unknown Author'`
followed by the template. -/
def formatEntry (e : BibEntry) : Str :=
  formatRest e
    (if truthy (getF e (str "author")) then repAnd ((getF e (str "author")).getD [])
     else str "Unknown Author")

/-- Function `renderHTML` from the source.  `entries.sort` mutates the caller's
array, so the model returns both the fragment (`.1`, the joined blocks in
sorted order) and the state of the array after the call (`.2`). -/
def renderHTML (entries : List BibEntry) : Str × List BibEntry :=
  let sorted := sortEntries entries
  ((sorted.map formatEntry).flatten, sorted)

/-!
JavaScript-semantics versions of the parser and renderer.  A JavaScript
runtime error can arise here only from calling a string method on a value
that may be `undefined`; `jsCall` models such a call, raising `TypeError`
on `undefined`.  These versions place a `jsCall` at every method call of
the source whose receiver is an indexing or destructuring result, so that
totality of the pipeline is a theorem rather than a modelling assumption.
-/

/-- A JavaScript method call on a string-or-undefined receiver. -/
def jsCall (o : Option Str) (f : Str → Str) : Except String Str :=
  match o with
  | none => Except.error "TypeError: cannot read properties of undefined"
  | some s => Except.ok (f s)

/-- Version of `processField` with explicit JavaScript error semantics: `k.trim()`
and `v.replace(...)` are method calls on the destructured pieces of
`line.split('=')`. -/
def processFieldE (e : BibEntry) (line : Str) : Except String BibEntry :=
  if (trimL line).contains '=' then do
    let k ← jsCall ((splitOnChar '=' (trimL line)).get? 0) (fun k => toLowerL (trimL k))
    let v ← jsCall ((splitOnChar '=' (trimL line)).get? 1) parseFieldValue
    pure (setF e k v)
  else pure e

/-- Version of `parseEntry` with explicit JavaScript error semantics:
`typeAndKey.split` and `type.trim()` are method calls on destructured
pieces, and `key.replace(',', '').trim()` is guarded by `key ? ... : ''`
exactly as in the source. -/
def parseEntryE (raw : Str) : Except String BibEntry := do
  let lines := splitOnChar '\n' raw
  let typeAndKey ← jsCall (lines.get? 0) id
  let pieces := splitOnChar lbrace typeAndKey
  let typeV ← jsCall (pieces.get? 0) trimL
  let keyV : Str :=
    match pieces.get? 1 with
    | none => []
    | some k => if k = [] then [] else trimL (removeFirstComma k)
  lines.tail.foldlM processFieldE (setF (setF [] (str "type") typeV) (str "key") keyV)

/-- Version of `parseBibtex` with explicit JavaScript error semantics. -/
def parseBibtexE (currentYear : Int) (bibtex : Str) : Except String (List BibEntry) := do
  let es ← ((splitOnChar '@' bibtex).drop 1).mapM parseEntryE
  pure (es.filter (keepRecent currentYear))

/-- Version of `formatEntry` with explicit JavaScript error semantics: the only
method call on a possibly-`undefined` receiver is
`entry.author.replace(/ and /gi, ', ')`, guarded by `entry.author ?`. -/
def formatEntryE (e : BibEntry) : Except String Str := do
  let author ←
    if truthy (getF e (str "author")) then jsCall (getF e (str "author")) repAnd
    else pure (str "Unknown Author")
  pure (formatRest e author)

/-- Version of `renderHTML` with explicit JavaScript error semantics. -/
def renderHTMLE (entries : List BibEntry) : Except String (Str × List BibEntry) := do
  let sorted := sortEntries entries
  let blocks ← sorted.mapM formatEntryE
  pure (blocks.flatten, sorted)

/-!
Definitions taken from the specification's words, used to state the
claims: they are deliberately written from the spec, to be compared with
the source-derived definitions above.
-/

/-- Modelled from the spec: "the text to the left of the first `=`,
trimmed and lower-cased" — the field name a body line should be stored
under. -/
def specFieldName (line : Str) : Str :=
  toLowerL (trimL (line.takeWhile (fun c => !(c = '='))))

/-- Modelled from the spec: the "numeric `year`" of an entry — the value
of its `year` field when that field is a (non-empty) digit string. -/
def specNumericYear (e : BibEntry) : Option Int :=
  match getF e (str "year") with
  | none => none
  | some y => if y ≠ [] ∧ y.all Char.isDigit then some (digitsToNat y : Int) else none

/-- The entry's `year` field is a well-formed 4-digit number. -/
def isFourDigitYear (e : BibEntry) : Bool :=
  match getF e (str "year") with
  | none => false
  | some y => y.length = 4 && y.all Char.isDigit

/-- The numeric year of an entry as the code reads it
(`parseInt(entry.year)`, 0 when absent or NaN). -/
def entryYearInt (e : BibEntry) : Int :=
  match getF e (str "year") with
  | none => 0
  | some y => (jsParseInt y).getD 0

/-- The entry's `year` field is either absent or a non-empty digit
string (the situations the sort claim speaks about). -/
def yearMissingOrNumeric (e : BibEntry) : Bool :=
  match getF e (str "year") with
  | none => true
  | some y => y ≠ [] && y.all Char.isDigit

/-- Whether `sub` is a prefix of `l` (plain Boolean recursion, used to state that
the rendered fragment contains a given piece of text). -/
def isPrefixL : Str → Str → Bool
  | [], _ => true
  | _ :: _, [] => false
  | a :: as, b :: bs => a = b && isPrefixL as bs

/-- Whether `sub` occurs somewhere in `l`. -/
def isInfixL (sub : Str) : Str → Bool
  | [] => isPrefixL sub []
  | l@(_ :: rest) => isPrefixL sub l || isInfixL sub rest

/-- A field value wrapped in braces and suffixed with a comma, as in
`title = {Deep Learning},`. -/
def braceWrap (v : Str) : Str := lbrace :: v ++ [rbrace, ',']

/-- A field value wrapped in double quotes and suffixed with a comma. -/
def quoteWrap (v : Str) : Str := dquote :: v ++ [dquote, ',']

/-!  Concrete inputs used by witnesses and counterexamples.  -/

/-- A one-entry BibTeX text whose entry has year 2023. -/
def bib1 : Str := str "@article\x7bx2023,\n year = \x7b2023\x7d,\n author = \x7bA\x7d\n\x7d\n"

/-- The single `@`-segment of `bib1`. -/
def seg1 : Str := str "article\x7bx2023,\n year = \x7b2023\x7d,\n author = \x7bA\x7d\n\x7d\n"

/-- The spec's worked example entry, laid out as a BibTeX file (the
parser is line-oriented, so each field is on its own line). -/
def bib7 : Str :=
  str "@article\x7bdoe2023,\n  author = \x7bDoe, J. and Roe, K.\x7d,\n  title = \x7bA Study\x7d,\n  year = \x7b2023\x7d,\n  journal = \x7bJournal X\x7d,\n  doi = \x7b10.1/xyz\x7d\n\x7d\n"

/-- A one-entry BibTeX text with year 2023 (clock-dependence example). -/
def bib10 : Str := str "@article\x7bp23,\n year = \x7b2023\x7d,\n author = \x7bA\x7d\n\x7d\n"

/-- A segment whose header has no `{` and whose body stores a field named
`key`. -/
def seg4 : Str := str "misc\nkey = zzz\n"

/-- A segment whose header has no `{` and whose body has ordinary fields. -/
def seg5 : Str := str "misc broken header\n title = \x7bT\x7d,\n year = \x7b2024\x7d\n"

/-- An entry with year 2022 (input order: first). -/
def eA : BibEntry := [(str "type", str "article"), (str "key", str "a22"), (str "year", str "2022")]

/-- An entry with year 2024 (input order: second). -/
def eB : BibEntry := [(str "type", str "article"), (str "key", str "b24"), (str "year", str "2024")]

/-!  Helper lemmas about `splitOnChar`.  -/

theorem splitOnChar_ne_nil (sep : Char) (l : Str) : splitOnChar sep l ≠ [] := by
  induction l with
  | nil => simp [splitOnChar]
  | cons c rest ih =>
    simp only [splitOnChar]
    rcases h : splitOnChar sep rest with _ | ⟨cur, others⟩
    · simp
    · by_cases hc : c = sep <;> simp [hc]

theorem splitOnChar_two_of_contains {sep : Char} {l : Str} (h : l.contains sep = true) :
    ∃ a b t, splitOnChar sep l = a :: b :: t := by
  induction l with
  | nil => simp [List.contains] at h
  | cons c rest ih =>
    by_cases hc : c = sep
    · subst hc
      rcases List.exists_cons_of_ne_nil (splitOnChar_ne_nil c rest) with ⟨cur, others, hco⟩
      exact ⟨[], cur, others, by simp [splitOnChar, hco]⟩
    · have hr : rest.contains sep = true := by
        rw [List.contains_cons] at h
        cases hb : sep == c with
        | true => exact absurd (beq_iff_eq.mp hb).symm hc
        | false => simpa [hb] using h
      rcases ih hr with ⟨a, b, t, hab⟩
      exact ⟨c :: a, b, t, by simp [splitOnChar, hab, hc]⟩

theorem splitOnChar_eq_single {sep : Char} {l : Str} (h : l.contains sep = false) :
    splitOnChar sep l = [l] := by
  induction l with
  | nil => rfl
  | cons c rest ih =>
    simp only [List.contains_cons, Bool.or_eq_false_iff, beq_eq_false_iff_ne] at h
    simp [splitOnChar, ih h.2, h.1.symm]

theorem headD_splitOnChar (sep : Char) (l : Str) :
    (splitOnChar sep l).headD [] = l.takeWhile (fun c => !(c = sep)) := by
  induction l with
  | nil => rfl
  | cons c rest ih =>
    rcases h : splitOnChar sep rest with _ | ⟨cur, others⟩
    · exact absurd h (splitOnChar_ne_nil sep rest)
    · by_cases hc : c = sep
      · simp [splitOnChar, h, hc, List.takeWhile_cons]
      · rw [h] at ih
        simp only [List.headD_cons] at ih
        simp [splitOnChar, h, hc, List.takeWhile_cons, ih]

/-!  Helper lemmas about the stable sort.  -/

theorem mem_insertByYear {z x : BibEntry} {l : List BibEntry} :
    z ∈ insertByYear x l ↔ z = x ∨ z ∈ l := by
  induction l with
  | nil => simp [insertByYear]
  | cons y ys ih =>
    by_cases hc : yearKeyNum y ≤ yearKeyNum x
    · simp only [insertByYear, if_pos hc, List.mem_cons]
    · simp only [insertByYear, if_neg hc, List.mem_cons, ih]
      tauto

theorem perm_insertByYear (x : BibEntry) (l : List BibEntry) :
    (insertByYear x l).Perm (x :: l) := by
  induction l with
  | nil => simp [insertByYear]
  | cons y ys ih =>
    by_cases hc : yearKeyNum y ≤ yearKeyNum x
    · simp [insertByYear, hc]
    · simp only [insertByYear, if_neg hc]
      exact (ih.cons y).trans (List.Perm.swap x y ys)

theorem perm_sortEntries (l : List BibEntry) : (sortEntries l).Perm l := by
  induction l with
  | nil => simp [sortEntries]
  | cons x xs ih => exact (perm_insertByYear x (sortEntries xs)).trans (ih.cons x)

theorem sorted_insertByYear {x : BibEntry} {l : List BibEntry}
    (h : List.Sorted (fun a b => yearKeyNum b ≤ yearKeyNum a) l) :
    List.Sorted (fun a b => yearKeyNum b ≤ yearKeyNum a) (insertByYear x l) := by
  induction l with
  | nil => simp [insertByYear]
  | cons y ys ih =>
    rw [List.sorted_cons] at h
    by_cases hc : yearKeyNum y ≤ yearKeyNum x
    · rw [insertByYear, if_pos hc, List.sorted_cons]
      refine ⟨?_, List.sorted_cons.mpr h⟩
      intro b hb
      rcases List.mem_cons.mp hb with rfl | hb
      · exact hc
      · exact le_trans (h.1 b hb) hc
    · rw [insertByYear, if_neg hc, List.sorted_cons]
      refine ⟨?_, ih h.2⟩
      intro b hb
      rcases mem_insertByYear.mp hb with rfl | hb
      · exact le_of_lt (lt_of_not_ge hc)
      · exact h.1 b hb

theorem sorted_sortEntries (l : List BibEntry) :
    List.Sorted (fun a b => yearKeyNum b ≤ yearKeyNum a) (sortEntries l) := by
  induction l with
  | nil => simp [sortEntries]
  | cons x xs ih => exact sorted_insertByYear ih

theorem filter_insertByYear_eq {x : BibEntry} {l : List BibEntry} {k : Int}
    (h : yearKeyNum x = k) :
    (insertByYear x l).filter (fun e => yearKeyNum e = k) =
      x :: l.filter (fun e => yearKeyNum e = k) := by
  induction l with
  | nil => simp [insertByYear, List.filter_cons, h]
  | cons y ys ih =>
    by_cases hc : yearKeyNum y ≤ yearKeyNum x
    · rw [insertByYear, if_pos hc, List.filter_cons, if_pos (by simp [h])]
    · have hy : ¬(yearKeyNum y = k) := fun hk => hc (le_of_eq (hk.trans h.symm))
      rw [insertByYear, if_neg hc, List.filter_cons, if_neg (by simp [hy]), ih,
        List.filter_cons, if_neg (by simp [hy])]

theorem filter_insertByYear_ne {x : BibEntry} {l : List BibEntry} {k : Int}
    (h : ¬(yearKeyNum x = k)) :
    (insertByYear x l).filter (fun e => yearKeyNum e = k) =
      l.filter (fun e => yearKeyNum e = k) := by
  induction l with
  | nil => simp [insertByYear, List.filter_cons, h]
  | cons y ys ih =>
    by_cases hc : yearKeyNum y ≤ yearKeyNum x
    · rw [insertByYear, if_pos hc, List.filter_cons, if_neg (by simp [h])]
    · rw [insertByYear, if_neg hc, List.filter_cons, ih]
      simp [List.filter_cons]

/-!  Helper lemmas about digits, whitespace and the numeric conversions.  -/

theorem isWs_eq_false_of_isDigit {c : Char} (h : c.isDigit = true) : isWs c = false := by
  by_contra hw
  rw [Bool.not_eq_false] at hw
  simp only [isWs, Bool.or_eq_true, decide_eq_true_eq] at hw
  rcases hw with (((h1 | h1) | h1) | h1) <;> subst h1 <;> revert h <;> decide

theorem ne_dash_of_isDigit {c : Char} (h : c.isDigit = true) : ¬(c = '-') := by
  intro hc; subst hc; revert h; decide

theorem ne_plus_of_isDigit {c : Char} (h : c.isDigit = true) : ¬(c = '+') := by
  intro hc; subst hc; revert h; decide

theorem dropWhile_eq_self_of_all {p : Char → Bool} {l : Str} (h : ∀ c ∈ l, p c = false) :
    l.dropWhile p = l := by
  cases l with
  | nil => rfl
  | cons c cs => simp [List.dropWhile_cons, h c (List.mem_cons_self c cs)]

theorem trimL_eq_self_of_all {l : Str} (h : ∀ c ∈ l, isWs c = false) : trimL l = l := by
  rw [trimL, dropWhile_eq_self_of_all h,
    dropWhile_eq_self_of_all (fun c hc => h c (List.mem_reverse.mp hc)), List.reverse_reverse]

theorem leadingDigits_all {l : Str} (h0 : l ≠ []) (hd : ∀ c ∈ l, c.isDigit = true) :
    leadingDigits l = some l := by
  have ht : l.takeWhile Char.isDigit = l := List.takeWhile_eq_self_iff.mpr hd
  cases l with
  | nil => exact absurd rfl h0
  | cons c cs =>
    rw [leadingDigits, ht]

theorem jsParseInt_digits {l : Str} (h0 : l ≠ []) (hd : ∀ c ∈ l, c.isDigit = true) :
    jsParseInt l = some (digitsToNat l : Int) := by
  have h1 : l.dropWhile isWs = l :=
    dropWhile_eq_self_of_all (fun c hc => isWs_eq_false_of_isDigit (hd c hc))
  cases l with
  | nil => exact absurd rfl h0
  | cons c cs =>
    have hdc := hd c (List.mem_cons_self c cs)
    rw [jsParseInt, h1]
    dsimp only
    rw [if_neg (ne_dash_of_isDigit hdc), if_neg (ne_plus_of_isDigit hdc),
      leadingDigits_all h0 hd, Option.map_some']

theorem jsToNumber_digits {l : Str} (h0 : l ≠ []) (hd : ∀ c ∈ l, c.isDigit = true) :
    jsToNumber l = some (digitsToNat l : Int) := by
  have h1 : trimL l = l :=
    trimL_eq_self_of_all (fun c hc => isWs_eq_false_of_isDigit (hd c hc))
  cases l with
  | nil => exact absurd rfl h0
  | cons c cs =>
    have hdc := hd c (List.mem_cons_self c cs)
    rw [jsToNumber, h1]
    dsimp only
    rw [if_neg (ne_dash_of_isDigit hdc), if_neg (ne_plus_of_isDigit hdc),
      if_pos (List.all_eq_true.mpr hd)]

theorem keepRecent_iff {cy : Int} {e : BibEntry} (h : isFourDigitYear e = true) :
    keepRecent cy e = true ↔ entryYearInt e ≥ cy - 3 := by
  rcases hy : getF e (str "year") with _ | y
  · rw [isFourDigitYear, hy] at h
    exact absurd h (by simp)
  · rw [isFourDigitYear, hy] at h
    simp only [Bool.and_eq_true, decide_eq_true_eq, List.all_eq_true] at h
    have hne : y ≠ [] := by
      intro h0
      rw [h0] at h
      simp at h
    rw [keepRecent, hy]
    dsimp only
    rw [if_neg hne, jsParseInt_digits hne h.2]
    rw [entryYearInt, hy]
    dsimp only
    rw [jsParseInt_digits hne h.2, Option.getD_some]
    simp

theorem yearKeyNum_eq_of_numeric {e : BibEntry} {y : Str} (hy : getF e (str "year") = some y)
    (h0 : y ≠ []) (hd : ∀ c ∈ y, c.isDigit = true) :
    yearKeyNum e = (digitsToNat y : Int) := by
  rw [yearKeyNum, hy]
  dsimp only
  rw [if_neg h0, jsToNumber_digits h0 hd, Option.getD_some]

theorem sortEntries_filter (l : List BibEntry) (k : Int) :
    (sortEntries l).filter (fun e => yearKeyNum e = k) =
      l.filter (fun e => yearKeyNum e = k) := by
  induction l with
  | nil => simp [sortEntries]
  | cons x xs ih =>
    by_cases hx : yearKeyNum x = k
    · rw [sortEntries, filter_insertByYear_eq hx, ih, List.filter_cons, if_pos (by simp [hx])]
    · rw [sortEntries, filter_insertByYear_ne hx, ih, List.filter_cons, if_neg (by simp [hx])]

/-- C1: for every entry parsed from a `@`-segment of the input whose
`year` field is a well-formed 4-digit number, the entry appears in the
sequence that `renderHTML` renders (the sorted output of `parseBibtex`)
if and only if its numeric year is at least `currentYear - 3` (the
recency window of 3 years); otherwise it is excluded. -/
theorem C1_recency_filter (cy : Int) (bibtex : Str) (seg : Str)
    (hseg : seg ∈ (splitOnChar '@' bibtex).drop 1)
    (hyear : isFourDigitYear (parseEntry seg) = true) :
    parseEntry seg ∈ sortEntries (parseBibtex cy bibtex) ↔
      entryYearInt (parseEntry seg) ≥ cy - 3 := by
  rw [(perm_sortEntries (parseBibtex cy bibtex)).mem_iff]
  simp only [parseBibtex, processSegs, List.mem_filter]
  constructor
  · intro hmem
    exact (keepRecent_iff hyear).mp hmem.2
  · intro hge
    exact ⟨List.mem_map_of_mem parseEntry hseg, (keepRecent_iff hyear).mpr hge⟩

/-- Witness for C1 at a concrete input: the 2023 entry of `bib1` with
`currentYear = 2024`. -/
theorem C1_recency_filter_witness :
    (seg1 ∈ (splitOnChar '@' bib1).drop 1) ∧ isFourDigitYear (parseEntry seg1) = true ∧
      (parseEntry seg1 ∈ sortEntries (parseBibtex 2024 bib1) ↔
        entryYearInt (parseEntry seg1) ≥ 2024 - 3) :=
  ⟨by decide, by decide, C1_recency_filter 2024 bib1 seg1 (by decide) (by decide)⟩

/-- C2: for every sequence of entries whose `year` fields are missing or
numeric, the blocks of `renderHTML` appear in descending order of the
numeric year key (missing year counting as 0, as in the comparator), the
sort is stable (the entries of each year class keep their input order),
the code's sort key agrees with the spec's numeric year, and the fragment
is the concatenation of the formatted blocks in that order. -/
theorem C2_sorted_stable (l : List BibEntry)
    (h : ∀ e ∈ l, yearMissingOrNumeric e = true) :
    List.Sorted (fun a b => yearKeyNum b ≤ yearKeyNum a) (sortEntries l) ∧
      (∀ k : Int, (sortEntries l).filter (fun e => yearKeyNum e = k) =
        l.filter (fun e => yearKeyNum e = k)) ∧
      (∀ e ∈ l, yearKeyNum e = (specNumericYear e).getD 0) ∧
      (renderHTML l).1 = ((sortEntries l).map formatEntry).flatten := by
  refine ⟨sorted_sortEntries l, fun k => sortEntries_filter l k, ?_, rfl⟩
  intro e he
  have hm := h e he
  rcases hy : getF e (str "year") with _ | y
  · simp [yearKeyNum, specNumericYear, hy]
  · rw [yearMissingOrNumeric, hy] at hm
    dsimp only at hm
    simp only [Bool.and_eq_true, decide_eq_true_eq, List.all_eq_true] at hm
    rw [specNumericYear, hy]
    dsimp only
    rw [if_pos ⟨hm.1, List.all_eq_true.mpr hm.2⟩, Option.getD_some]
    exact yearKeyNum_eq_of_numeric hy hm.1 hm.2

/-- Witness for C2 at a concrete input: the two entries with years 2022
and 2024 (in that input order) render as the 2024 block followed by the
2022 block. -/
theorem C2_sorted_stable_witness :
    (∀ e ∈ [eA, eB], yearMissingOrNumeric e = true) ∧
      (List.Sorted (fun a b => yearKeyNum b ≤ yearKeyNum a) (sortEntries [eA, eB]) ∧
        (∀ k : Int, (sortEntries [eA, eB]).filter (fun e => yearKeyNum e = k) =
          [eA, eB].filter (fun e => yearKeyNum e = k)) ∧
        (∀ e ∈ [eA, eB], yearKeyNum e = (specNumericYear e).getD 0) ∧
        (renderHTML [eA, eB]).1 = ((sortEntries [eA, eB]).map formatEntry).flatten) ∧
      sortEntries [eA, eB] = [eB, eA] :=
  ⟨by decide, C2_sorted_stable [eA, eB] (by decide), by decide⟩

/-- C6: applied to the empty sequence of entries, `renderHTML` returns
the empty string as its fragment — no wrapper markup. -/
theorem C6_empty_render : (renderHTML ([] : List BibEntry)).1 = str "" := rfl

/-- C9 counterexample: the claim that the input sequence's order is
unchanged after `renderHTML` returns is false — `entries.sort` is an
in-place mutation, so the caller's array of the 2022 entry followed by
the 2024 entry has been reordered after the call. -/
theorem C9_mutation_counterexample : (renderHTML [eA, eB]).2 ≠ [eA, eB] := by decide

/-- C9 (amended): `renderHTML` has no side effect beyond returning the
fragment and the in-place sort of the entries array: after the call the
sequence is a permutation of the input (same length, same elements), in
the year-descending render order, and the fragment is the concatenation
of the blocks. -/
theorem C9_render_sorts_in_place (entries : List BibEntry) :
    (renderHTML entries).2.Perm entries ∧
      (renderHTML entries).2.length = entries.length ∧
      (renderHTML entries).2 = sortEntries entries ∧
      (renderHTML entries).1 = ((sortEntries entries).map formatEntry).flatten :=
  ⟨perm_sortEntries entries, (perm_sortEntries entries).length_eq, rfl, rfl⟩

/-- C10: parsing is not a function of the input text alone — the same
BibTeX text parsed in two different calendar years (the year being read
from the system clock inside `parseBibtex`, modelled here as the explicit
`currentYear` argument) yields different entry sequences. -/
theorem C10_clock_dependent_parse : parseBibtex 2024 bib10 ≠ parseBibtex 2030 bib10 := by
  decide

/-- C7: for the spec's single worked example entry (in its line-per-field
BibTeX layout, `bib7`) with `currentYear = 2024` and the built-in window
of 3 years, the rendered fragment contains the author string
with every ` and ` separator replaced by `, `, the italicized title, the
venue with the year, and a hyperlink whose target is
`https://doi.org/10.1/xyz`. -/
theorem C7_single_entry_example :
    isInfixL (str "Doe, J., Roe, K.") (renderHTML (parseBibtex 2024 bib7)).1 = true ∧
      isInfixL (str "<i>\"A Study\"</i>") (renderHTML (parseBibtex 2024 bib7)).1 = true ∧
      isInfixL (str "Journal X, 2023") (renderHTML (parseBibtex 2024 bib7)).1 = true ∧
      isInfixL (str "href=\"https://doi.org/10.1/xyz\"") (renderHTML (parseBibtex 2024 bib7)).1 = true := by
  decide

/-!  Helper lemmas for the field-value stripping round trip.  -/

theorem stripBQ_append (a b : Str) : stripBQ (a ++ b) = stripBQ a ++ stripBQ b := by
  simp [stripBQ, List.filter_append]

theorem stripBQ_braceWrap (v : Str) : stripBQ (braceWrap v) = stripBQ v ++ [','] := by
  have hw : braceWrap v = [lbrace] ++ v ++ [rbrace, ','] := rfl
  have h1 : stripBQ [lbrace] = [] := by decide
  have h2 : stripBQ [rbrace, ','] = [','] := by decide
  rw [hw, stripBQ_append, stripBQ_append, h1, h2, List.nil_append]

theorem stripBQ_quoteWrap (v : Str) : stripBQ (quoteWrap v) = stripBQ v ++ [','] := by
  have hw : quoteWrap v = [dquote] ++ v ++ [dquote, ','] := rfl
  have h1 : stripBQ [dquote] = [] := by decide
  have h2 : stripBQ [dquote, ','] = [','] := by decide
  rw [hw, stripBQ_append, stripBQ_append, h1, h2, List.nil_append]

theorem dropTrailingComma_concat_comma (l : Str) : dropTrailingComma (l ++ [',']) = l := by
  rw [dropTrailingComma, if_pos (List.getLast?_concat l), List.dropLast_concat]

theorem dropTrailingComma_eq_self {l : Str} (h : ¬(l.getLast? = some ',')) :
    dropTrailingComma l = l := by
  rw [dropTrailingComma, if_neg h]

/-- C5 counterexample: the round trip fails as universally stated — for
the field value `a,` (which itself ends in a comma), the decorated form
`{a,},` parses to `a,` while the undecorated form parses to `a` (its own
trailing comma is stripped). -/
theorem C5_trailing_comma_counterexample :
    ¬(parseFieldValue (braceWrap (str "a,")) = parseFieldValue (str "a,")) := by decide

/-- C5 (amended): for every field value whose brace/quote-stripped form
does not end in a comma, wrapping it in braces or in quotes and suffixing
a comma yields the same parsed value as the undecorated value. -/
theorem C5_decoration_round_trip (v : Str) (h : ¬((stripBQ v).getLast? = some ',')) :
    parseFieldValue (braceWrap v) = parseFieldValue v ∧
      parseFieldValue (quoteWrap v) = parseFieldValue v := by
  constructor
  · rw [parseFieldValue, parseFieldValue, stripBQ_braceWrap, dropTrailingComma_concat_comma,
      dropTrailingComma_eq_self h]
  · rw [parseFieldValue, parseFieldValue, stripBQ_quoteWrap, dropTrailingComma_concat_comma,
      dropTrailingComma_eq_self h]

/-- Witness for C5 at the spec's example value `Deep Learning`: both the
decorated forms parse to the undecorated parse, which is `Deep Learning`
itself. -/
theorem C5_decoration_round_trip_witness :
    (¬((stripBQ (str "Deep Learning")).getLast? = some ',')) ∧
      (parseFieldValue (braceWrap (str "Deep Learning")) = parseFieldValue (str "Deep Learning") ∧
        parseFieldValue (quoteWrap (str "Deep Learning")) = parseFieldValue (str "Deep Learning")) ∧
      parseFieldValue (str "Deep Learning") = str "Deep Learning" :=
  ⟨by decide, C5_decoration_round_trip (str "Deep Learning") (by decide), by decide⟩

/-!  Helper lemmas: the JavaScript-semantics pipeline never errors.  -/

theorem processFieldE_ok (e : BibEntry) (line : Str) :
    processFieldE e line = Except.ok (processField e line) := by
  by_cases hc : (trimL line).contains '=' = true
  · rcases splitOnChar_two_of_contains hc with ⟨a, b, t, hs⟩
    simp only [processFieldE, processField, if_pos hc, hs, fieldNameOfLine, fieldValueOfLine,
      List.get?_cons_zero, List.get?_cons_succ, List.headD_cons, List.getD_cons_succ,
      List.getD_cons_zero, jsCall]
    rfl
  · simp only [processFieldE, processField, if_neg hc]
    rfl

theorem foldlM_processFieldE (fields : List Str) (b : BibEntry) :
    fields.foldlM processFieldE b = Except.ok (fields.foldl processField b) := by
  induction fields generalizing b with
  | nil => rfl
  | cons l ls ih =>
    rw [List.foldlM_cons, processFieldE_ok, List.foldl_cons]
    exact ih (processField b l)

theorem ok_bind {α β : Type} (x : α) (f : α → Except String β) :
    (Except.ok x >>= f) = f x := rfl

theorem parseEntryE_ok (raw : Str) : parseEntryE raw = Except.ok (parseEntry raw) := by
  rcases hl : splitOnChar '\n' raw with _ | ⟨first, rest⟩
  · exact absurd hl (splitOnChar_ne_nil '\n' raw)
  · rcases hp : splitOnChar lbrace first with _ | ⟨p0, ps⟩
    · exact absurd hp (splitOnChar_ne_nil lbrace first)
    · simp only [parseEntryE, parseEntry, hl, List.get?_cons_zero, List.headD_cons,
        List.tail_cons, jsCall, ok_bind, id_eq, hp]
      exact foldlM_processFieldE rest _

theorem mapM_parseEntryE (segs : List Str) :
    segs.mapM parseEntryE = Except.ok (segs.map parseEntry) := by
  induction segs with
  | nil => rfl
  | cons s ss ih =>
    rw [List.mapM_cons, parseEntryE_ok, List.map_cons, ok_bind, ih, ok_bind]
    rfl

theorem parseBibtexE_ok (cy : Int) (bibtex : Str) :
    parseBibtexE cy bibtex = Except.ok (parseBibtex cy bibtex) := by
  simp only [parseBibtexE, mapM_parseEntryE, ok_bind]
  rfl

theorem formatEntryE_ok (e : BibEntry) : formatEntryE e = Except.ok (formatEntry e) := by
  rcases ha : getF e (str "author") with _ | a
  · simp only [formatEntryE, formatEntry, ha, truthy]
    rfl
  · by_cases h0 : a = []
    · subst h0
      simp only [formatEntryE, formatEntry, ha, truthy]
      rfl
    · simp only [formatEntryE, formatEntry, ha, truthy, jsCall]
      rw [if_pos (by simpa using h0), if_pos (by simpa using h0)]
      rfl

theorem mapM_formatEntryE (l : List BibEntry) :
    l.mapM formatEntryE = Except.ok (l.map formatEntry) := by
  induction l with
  | nil => rfl
  | cons e es ih =>
    rw [List.mapM_cons, formatEntryE_ok, List.map_cons, ok_bind, ih, ok_bind]
    rfl

theorem renderHTMLE_ok (entries : List BibEntry) :
    renderHTMLE entries = Except.ok (renderHTML entries) := by
  simp only [renderHTMLE, mapM_formatEntryE, ok_bind]
  rfl

/-- C3: neither the parser nor the renderer can raise a JavaScript
runtime error: under the explicit-error semantics (`jsCall` raising
`TypeError` for a string method called on `undefined`), `parseBibtexE`
succeeds on every input text, and `renderHTMLE` succeeds on every entry
sequence — including entries missing the `author`, `title`, or venue
fields — and both return exactly the pure pipeline's results.  (The only
fatal path of the source, failure to fetch the BibTeX text, happens
before the parser runs and is outside this model.) -/
theorem C3_parser_renderer_total :
    (∀ (cy : Int) (bibtex : Str), parseBibtexE cy bibtex = Except.ok (parseBibtex cy bibtex)) ∧
      (∀ entries : List BibEntry, renderHTMLE entries = Except.ok (renderHTML entries)) :=
  ⟨parseBibtexE_ok, renderHTMLE_ok⟩

/-!  Helper lemmas: trimming commutes with cutting at the first `=`.  -/

theorem mem_dropWhile_of_mem {p : Char → Bool} {c : Char} {l : Str}
    (hm : c ∈ l) (hc : p c = false) : c ∈ l.dropWhile p := by
  induction l with
  | nil => simp at hm
  | cons x xs ih =>
    rw [List.dropWhile_cons]
    by_cases hx : p x = true
    · rw [if_pos hx]
      rcases List.mem_cons.mp hm with rfl | hm2
      · rw [hx] at hc
        exact absurd hc (by simp)
      · exact ih hm2
    · rw [if_neg hx]
      exact hm

theorem mem_trimL {c : Char} {l : Str} (hm : c ∈ l) (hc : isWs c = false) : c ∈ trimL l := by
  rw [trimL]
  exact List.mem_reverse.mpr
    (mem_dropWhile_of_mem (List.mem_reverse.mpr (mem_dropWhile_of_mem hm hc)) hc)

theorem contains_trimL_of_contains {l : Str} (h : l.contains '=' = true) :
    (trimL l).contains '=' = true := by
  have hm : ('=' : Char) ∈ l := by simpa using h
  simpa using mem_trimL hm (by decide)

theorem takeWhile_append_all {p : Char → Bool} {a b : Str} (h : ∀ x ∈ a, p x = true) :
    (a ++ b).takeWhile p = a ++ b.takeWhile p := by
  rw [List.takeWhile_append, List.takeWhile_eq_self_iff.mpr h, if_pos rfl]

theorem takeWhile_append_stop {p : Char → Bool} {a b : Str} (h : ¬(a.takeWhile p = a)) :
    (a ++ b).takeWhile p = a.takeWhile p := by
  rw [List.takeWhile_append, if_neg]
  intro hl
  exact h ((List.takeWhile_prefix p).eq_of_length hl)

theorem dropWhile_append_all {p : Char → Bool} {a b : Str} (h : ∀ x ∈ a, p x = true) :
    (a ++ b).dropWhile p = b.dropWhile p := by
  rw [List.dropWhile_append, List.dropWhile_eq_nil_iff.mpr h]
  simp

theorem trimL_append_ws_left {w x : Str} (h : ∀ c ∈ w, isWs c = true) :
    trimL (w ++ x) = trimL x := by
  rw [trimL, trimL, dropWhile_append_all h]

theorem trimL_append_ws_right {x t : Str} (h : ∀ c ∈ t, isWs c = true) :
    trimL (x ++ t) = trimL x := by
  by_cases hx : x.dropWhile isWs = []
  · rw [trimL, trimL, List.dropWhile_append, hx]
    simp only [List.isEmpty_nil, if_true]
    rw [List.dropWhile_eq_nil_iff.mpr h]
  · rw [trimL, trimL, List.dropWhile_append, if_neg (by simpa using hx), List.reverse_append,
      dropWhile_append_all (fun c hc => h c (List.mem_reverse.mp hc))]

theorem trimL_takeWhile {l : Str} {p : Char → Bool} (hp : ∀ c, isWs c = true → p c = true) :
    trimL ((trimL l).takeWhile p) = trimL (l.takeWhile p) := by
  have hwws : ∀ c ∈ l.takeWhile isWs, isWs c = true := fun c hc => List.mem_takeWhile_imp hc
  have hw : ∀ c ∈ l.takeWhile isWs, p c = true := fun c hc => hp c (hwws c hc)
  have hsplit : l = l.takeWhile isWs ++ l.dropWhile isWs :=
    (List.takeWhile_append_dropWhile isWs l).symm
  have hrt : trimL (l.takeWhile p) = trimL ((l.dropWhile isWs).takeWhile p) := by
    conv_lhs => rw [hsplit, takeWhile_append_all hw, trimL_append_ws_left hwws]
  have hlt : trimL l = trimL (l.dropWhile isWs) := by
    conv_lhs => rw [hsplit, trimL_append_ws_left hwws]
  have h1 : trimL (l.dropWhile isWs) = ((l.dropWhile isWs).reverse.dropWhile isWs).reverse := by
    rw [trimL, List.dropWhile_idempotent]
  have hmm : l.dropWhile isWs =
      trimL (l.dropWhile isWs) ++ ((l.dropWhile isWs).reverse.takeWhile isWs).reverse := by
    rw [h1, ← List.reverse_append, List.takeWhile_append_dropWhile, List.reverse_reverse]
  have htws : ∀ c ∈ ((l.dropWhile isWs).reverse.takeWhile isWs).reverse, isWs c = true :=
    fun c hc => List.mem_takeWhile_imp (List.mem_reverse.mp hc)
  by_cases hstop : (trimL (l.dropWhile isWs)).takeWhile p = trimL (l.dropWhile isWs)
  · have hall : ∀ c ∈ trimL (l.dropWhile isWs), p c = true := List.takeWhile_eq_self_iff.mp hstop
    have h2 : (l.dropWhile isWs).takeWhile p = trimL (l.dropWhile isWs) ++
        (((l.dropWhile isWs).reverse.takeWhile isWs).reverse).takeWhile p := by
      conv_lhs => rw [hmm, takeWhile_append_all hall]
    have h3 : ∀ c ∈ (((l.dropWhile isWs).reverse.takeWhile isWs).reverse).takeWhile p,
        isWs c = true :=
      fun c hc => htws c ((List.takeWhile_prefix p).subset hc)
    rw [hlt, hstop, hrt, h2, trimL_append_ws_right h3]
  · have h2 : (l.dropWhile isWs).takeWhile p = (trimL (l.dropWhile isWs)).takeWhile p := by
      conv_lhs => rw [hmm, takeWhile_append_stop hstop]
    rw [hlt, hrt, h2]

theorem ws_ne_eq {c : Char} (h : isWs c = true) : (!(c = '=')) = true := by
  simp only [isWs, Bool.or_eq_true, decide_eq_true_eq] at h
  rcases h with (((h1 | h1) | h1) | h1) <;> subst h1 <;> decide

theorem fieldNameOfLine_eq_spec (line : Str) : fieldNameOfLine line = specFieldName line := by
  rw [fieldNameOfLine, specFieldName, headD_splitOnChar,
    trimL_takeWhile (fun c hc => ws_ne_eq hc)]

/-- C8: for every body line containing `=`, the field is stored under the
name given by the spec — the text to the left of the first `=`, trimmed
and lower-cased — and looking the entry up under that name immediately
afterwards yields the stored value. -/
theorem C8_field_name_normalization (e : BibEntry) (line : Str)
    (h : line.contains '=' = true) :
    ∃ v, processField e line = setF e (specFieldName line) v ∧
      getF (processField e line) (specFieldName line) = some v := by
  have hc : (trimL line).contains '=' = true := contains_trimL_of_contains h
  refine ⟨fieldValueOfLine line, ?_, ?_⟩
  · rw [processField, if_pos hc, fieldNameOfLine_eq_spec]
  · rw [processField, if_pos hc, fieldNameOfLine_eq_spec, setF, getF, List.lookup_cons]
    simp

/-- Witness for C8 at the concrete line `  Title = {Deep Learning},`: the
field is stored and looked up under `title`. -/
theorem C8_field_name_normalization_witness :
    ((str "  Title = \x7bDeep Learning\x7d,").contains '=' = true) ∧
      (∃ v, processField [] (str "  Title = \x7bDeep Learning\x7d,") =
          setF [] (specFieldName (str "  Title = \x7bDeep Learning\x7d,")) v ∧
        getF (processField [] (str "  Title = \x7bDeep Learning\x7d,"))
          (specFieldName (str "  Title = \x7bDeep Learning\x7d,")) = some v) ∧
      getF (processField [] (str "  Title = \x7bDeep Learning\x7d,")) (str "title") =
        some (str "Deep Learning") :=
  ⟨by decide, C8_field_name_normalization [] _ (by decide), by decide⟩

/-!  Helper lemma: field lines that do not name `k` leave `entry[k]` alone.  -/

theorem getF_foldl_processField (lines : List Str) (b : BibEntry) (k : Str)
    (h : ∀ line ∈ lines, ¬(fieldNameOfLine line = k)) :
    getF (lines.foldl processField b) k = getF b k := by
  induction lines generalizing b with
  | nil => rfl
  | cons l ls ih =>
    rw [List.foldl_cons, ih _ (fun x hx => h x (List.mem_cons_of_mem l hx))]
    rw [processField]
    by_cases hc : (trimL l).contains '=' = true
    · have hne : (k == fieldNameOfLine l) = false :=
        beq_eq_false_iff_ne.mpr (fun he => (h l (List.mem_cons_self l ls)) he.symm)
      rw [if_pos hc, setF, getF, getF, List.lookup_cons, hne]
    · rw [if_neg hc]

/-- C4 counterexample: the claim fails as universally stated — in the
segment `misc\nkey = zzz\n` the header has no `{`, but the body stores a
field named `key` which shadows the default, so the parsed record's `key`
is not the empty string. -/
theorem C4_key_shadow_counterexample :
    ((splitOnChar '\n' seg4).headD []).contains lbrace = false ∧
      ¬(getF (parseEntry seg4) (str "key") = some []) := by decide

/-- C4 (amended): for every entry segment whose header line contains no
`{` and whose body lines store no field named `key`, parsing produces a
record whose `key` is the empty string instead of failing, and the
processing of the remaining segments continues unaffected. -/
theorem C4_malformed_header_defaults (seg : Str)
    (hheader : ((splitOnChar '\n' seg).headD []).contains lbrace = false)
    (hnokey : ∀ line ∈ (splitOnChar '\n' seg).tail, ¬(fieldNameOfLine line = str "key")) :
    getF (parseEntry seg) (str "key") = some [] ∧
      ∀ (cy : Int) (pre post : List Str),
        processSegs cy (pre ++ seg :: post) =
          processSegs cy pre ++ processSegs cy [seg] ++ processSegs cy post := by
  constructor
  · rcases hl : splitOnChar '\n' seg with _ | ⟨first, rest⟩
    · exact absurd hl (splitOnChar_ne_nil '\n' seg)
    · rw [hl] at hheader hnokey
      simp only [List.headD_cons] at hheader
      simp only [List.tail_cons] at hnokey
      have hp : splitOnChar lbrace first = [first] := splitOnChar_eq_single hheader
      simp only [parseEntry, hl, hp, List.headD_cons, List.tail_cons, List.get?_cons_succ,
        List.get?_nil]
      rw [getF_foldl_processField rest _ _ hnokey]
      rfl
  · intro cy pre post
    simp only [processSegs, List.map_append, List.filter_append, List.map_cons, List.map_nil]
    by_cases hk : keepRecent cy (parseEntry seg) = true <;>
      simp [List.filter_cons, hk]

/-- Witness for C4 at the concrete segment `seg5` (header
`misc broken header` with no `{`, ordinary `title`/`year` body lines). -/
theorem C4_malformed_header_defaults_witness :
    (((splitOnChar '\n' seg5).headD []).contains lbrace = false) ∧
      (∀ line ∈ (splitOnChar '\n' seg5).tail, ¬(fieldNameOfLine line = str "key")) ∧
      (getF (parseEntry seg5) (str "key") = some [] ∧
        ∀ (cy : Int) (pre post : List Str),
          processSegs cy (pre ++ seg5 :: post) =
            processSegs cy pre ++ processSegs cy [seg5] ++ processSegs cy post) :=
  ⟨by decide, by decide, C4_malformed_header_defaults seg5 (by decide) (by decide)⟩

end Bib
